import Mathlib

/-!
Verification of the in-memory grid/selection/editing model of the ai-excel
spreadsheet application. The definitions below are a shallow embedding of
the TypeScript sources: the App component (column label generation, undo
history, merge handling, the AI-result application path), the ExcelTable
component (cell editing, clearing the selected rectangle) and the column
label generation shared with the import codec. Machine floating point is
out of scope; sheet numbers are modelled as integers (no claim depends on
float behaviour).
-/

namespace AIExcel

/-- A cell value (src/types.ts, SheetRow): null, a string, a number, or a
boolean. Numbers are modelled as integers. -/
inductive Cell where
  | null : Cell
  | str (s : String) : Cell
  | num (n : Int) : Cell
  | bool (b : Bool) : Cell
deriving DecidableEq, Repr

/-- JavaScript .toString() of a cell value; the null case is never reached
by callers (every use is behind an optional-chaining guard that collapses
null to the empty string, which is what this returns). -/
def jsToString : Cell → String
  | Cell.null => ""
  | Cell.str s => s
  | Cell.num n => toString n
  | Cell.bool b => if b then "true" else "false"

/-- A row object: the ordered key-value pairs of the JavaScript row object
(src/types.ts SheetRow maps column labels to cell values). Keys are unique
in a JS object; rowSet preserves uniqueness and key order. -/
abbrev Row := List (String × Cell)

/-- Property read row[k]: none models an absent key (JS undefined). -/
def rowGet (row : Row) (k : String) : Option Cell :=
  (row.find? (fun p => p.1 == k)).map (fun p => p.2)

/-- JS spread update of a row object with one key: keeps the original key
order, overwriting the value in place when the key exists and appending
the new key at the end otherwise. -/
def rowSet (row : Row) (k : String) (v : Cell) : Row :=
  if row.any (fun p => p.1 == k) then
    row.map (fun p => if p.1 == k then (k, v) else p)
  else row ++ [(k, v)]

/-- A per-cell style override (src/types.ts CellStyle): every field
optional, none meaning the key is absent from the JS object. -/
structure CellStyle where
  backgroundColor : Option String := none
  color : Option String := none
  fontWeight : Option String := none
  fontStyle : Option String := none
  textDecoration : Option String := none
  fontSize : Option Int := none
  fontFamily : Option String := none
  border : Option String := none
  borderColor : Option String := none
  textAlign : Option String := none
  verticalAlign : Option String := none
  wrapText : Option Bool := none
  numberFormat : Option String := none
  precision : Option Int := none
deriving DecidableEq, Repr

/-- A cell coordinate (src/types.ts CellPosition). -/
structure CellPos where
  rowIndex : Nat
  colIndex : Nat
  colKey : String
deriving DecidableEq, Repr

/-- A selection or merge range (src/types.ts SelectionRange). The source
field named end is modelled as stop, since end is a reserved word. -/
structure SelectionRange where
  start : CellPos
  stop : CellPos
deriving DecidableEq, Repr

/-- The sheet (src/types.ts SheetData). The optional maps are modelled as
association lists, empty when the field is absent. -/
structure Sheet where
  name : String
  columns : List String
  rows : List Row
  cellStyles : List (String × CellStyle) := []
  colWidths : List (String × Int) := []
  rowHeights : List (Nat × Int) := []
  merges : List SelectionRange := []
deriving DecidableEq, Repr

/-- The normalized per-axis min and max of a range, as computed at the top
of every range-consuming handler in the sources. -/
structure Bounds where
  minR : Nat
  maxR : Nat
  minC : Nat
  maxC : Nat
deriving DecidableEq, Repr

def boundsOf (sel : SelectionRange) : Bounds :=
  { minR := min sel.start.rowIndex sel.stop.rowIndex
    maxR := max sel.start.rowIndex sel.stop.rowIndex
    minC := min sel.start.colIndex sel.stop.colIndex
    maxC := max sel.start.colIndex sel.stop.colIndex }

/-- The characters of the base-26 column label for zero-based index i,
as generated by createEmptySheet (App root) and parseExcelFile
(src/utils/excelUtils.ts): the JS loop prepends
String.fromCharCode(tempIdx % 26 + 65) and continues with
floor(tempIdx / 26) - 1 while that stays nonnegative. -/
def colLabelChars (i : Nat) : List Char :=
  if h : i < 26 then [Char.ofNat (i % 26 + 65)]
  else colLabelChars (i / 26 - 1) ++ [Char.ofNat (i % 26 + 65)]
termination_by i
decreasing_by
  have h26 : i / 26 < i := Nat.div_lt_self (by omega) (by omega)
  omega

/-- The column label string generated for zero-based index i. -/
def colLabel (i : Nat) : String := String.mk (colLabelChars i)

/-- Decoding accumulator for a bijective base-26 label: each letter c
contributes (c - 65) + 1 in base 26. -/
def decodeAux (acc : Nat) : List Char → Nat
  | [] => acc
  | c :: cs => decodeAux (acc * 26 + (c.toNat - 65) + 1) cs

/-- Decode a column label back to its zero-based index: the inverse
direction asserted by the specification (label encoding is a bijection). -/
def decodeLabel (s : String) : Nat :=
  decodeAux 0 s.data - 1

/-- MAX_HISTORY_STEPS (App root, line 22). -/
def MAX_HISTORY_STEPS : Nat := 50

/-- The App component state the claims depend on: the live sheet and the
undo history (useState hooks at the top of the App component). -/
structure AppState where
  sheet : Sheet
  history : List Sheet
deriving DecidableEq, Repr

/-- updateSheetData (App root, lines 62-66): prepend the previous sheet to
the history, truncate to MAX_HISTORY_STEPS, install the new sheet. -/
def updateSheetData (st : AppState) (newData : Sheet) : AppState :=
  { sheet := newData
    history := (st.sheet :: st.history).take MAX_HISTORY_STEPS }

/-- handleUndo (App root, lines 68-73): no-op on empty history, otherwise
install the front entry as the live sheet and drop it from the history. -/
def handleUndo (st : AppState) : AppState :=
  match st.history with
  | [] => st
  | previousState :: rest => { sheet := previousState, history := rest }

/-- Lookup in the cellStyles map. -/
def styleGet (styles : List (String × CellStyle)) (k : String) : Option CellStyle :=
  (styles.find? (fun p => p.1 == k)).map (fun p => p.2)

/-- JS spread update of the cellStyles object at one key. -/
def styleSet (styles : List (String × CellStyle)) (k : String) (v : CellStyle) :
    List (String × CellStyle) :=
  if styles.any (fun p => p.1 == k) then
    styles.map (fun p => if p.1 == k then (k, v) else p)
  else styles ++ [(k, v)]

/-- The non-emptiness test used by executeMerge and handleMergeToggle:
val is not null and not the empty string. -/
def cellHasContent (v : Cell) : Bool :=
  !(v == Cell.null || v == Cell.str "")

/-- The two merge strategies offered by the merge modal. -/
inductive MergeType where
  | standard : MergeType
  | content : MergeType
deriving DecidableEq, Repr

/-- Row-major collection of the non-empty stringified values in the
rectangle (the content branch of executeMerge; all reads happen before any
cell is overwritten). A row or key that is absent contributes nothing:
rows are total over the column list by the sheet invariant. -/
def mergeContents (s : Sheet) (b : Bounds) : List String :=
  ((List.range' b.minR (b.maxR + 1 - b.minR)).map (fun r =>
    (List.range' b.minC (b.maxC + 1 - b.minC)).filterMap (fun c =>
      match rowGet (s.rows.getD r []) (s.columns.getD c "") with
      | some v => if cellHasContent v then some (jsToString v) else none
      | none => none))).flatten

/-- The contentCount loop of handleMergeToggle (App root, lines 185-191):
how many cells of the rectangle are non-empty. -/
def contentCount (s : Sheet) (b : Bounds) : Nat :=
  ((List.range' b.minR (b.maxR + 1 - b.minR)).map (fun r =>
    ((List.range' b.minC (b.maxC + 1 - b.minC)).filter (fun c =>
      match rowGet (s.rows.getD r []) (s.columns.getD c "") with
      | some v => cellHasContent v
      | none => false)).length)).sum

/-- The value executeMerge writes into the top-left cell: the standard
strategy keeps the existing top-left value, the content strategy joins the
non-empty values of the rectangle with single spaces. -/
def mergeFinalValue (s : Sheet) (b : Bounds) : MergeType → Cell
  | MergeType.standard =>
      (rowGet (s.rows.getD b.minR []) (s.columns.getD b.minC "")).getD Cell.null
  | MergeType.content => Cell.str (String.intercalate " " (mergeContents s b))

/-- One row pass of the nested write loops shared by executeMerge and
clearSelectedContent: assign f c to the cell keyed by column c, for every
c from minC to maxC. -/
def setRange (cols : List String) (minC maxC : Nat) (f : Nat → Cell) (row : Row) : Row :=
  (List.range' minC (maxC + 1 - minC)).foldl
    (fun acc c => rowSet acc (cols.getD c "") (f c)) row

/-- Replace each row by f applied to its index and the row, indices
starting at i: the shape of the write loops that rebuild newRows. -/
def mapIdxFrom (f : Nat → Row → Row) : Nat → List Row → List Row
  | _, [] => []
  | i, row :: rest => f i row :: mapIdxFrom f (i + 1) rest

/-- The rebuilt row list of executeMerge: inside the rectangle every cell
becomes null except the top-left cell, which receives fv. -/
def mergeRowsOf (s : Sheet) (b : Bounds) (fv : Cell) : List Row :=
  mapIdxFrom (fun r row =>
    if b.minR ≤ r ∧ r ≤ b.maxR then
      setRange s.columns b.minC b.maxC
        (fun c => if r = b.minR ∧ c = b.minC then fv else Cell.null) row
    else row) 0 s.rows

/-- The style patch executeMerge applies to the root cell: spread the
existing override (or an empty object) with center/middle alignment. -/
def mergeCenterStyle (st : CellStyle) : CellStyle :=
  { st with textAlign := some "center", verticalAlign := some "middle" }

/-- executeMerge (App root, lines 115-161): write the strategy's final
value into the top-left cell, null into every other cell of the rectangle,
center the root cell's style and append the selection to the merge list. -/
def executeMerge (s : Sheet) (sel : SelectionRange) (ty : MergeType) : Sheet :=
  let b := boundsOf sel
  let startColKey := s.columns.getD b.minC ""
  let rootId := toString b.minR ++ "-" ++ startColKey
  { s with
    rows := mergeRowsOf s b (mergeFinalValue s b ty)
    cellStyles := styleSet s.cellStyles rootId
      (mergeCenterStyle ((styleGet s.cellStyles rootId).getD {}))
    merges := s.merges ++ [sel] }

/-- The findIndex call of handleMergeToggle: the first merge region whose
normalized bounds equal b. -/
def findMergeIdx (merges : List SelectionRange) (b : Bounds) : Option Nat :=
  merges.findIdx? (fun m => boundsOf m == b)

/-- The three ways handleMergeToggle can resolve: remove an existing
identical region (an updateSheetData call), open the strategy modal
(no sheet change), or merge immediately with the standard strategy. -/
inductive MergeToggleResult where
  | unmerged (s : Sheet) : MergeToggleResult
  | modal : MergeToggleResult
  | merged (s : Sheet) : MergeToggleResult
deriving DecidableEq, Repr

/-- handleMergeToggle (App root, lines 163-198). -/
def handleMergeToggle (s : Sheet) (sel : SelectionRange) : MergeToggleResult :=
  let b := boundsOf sel
  match findMergeIdx s.merges b with
  | some idx => MergeToggleResult.unmerged { s with merges := s.merges.eraseIdx idx }
  | none =>
    if 1 < contentCount s b then MergeToggleResult.modal
    else MergeToggleResult.merged (executeMerge s sel MergeType.standard)

/-- clearSelectedContent (src/components/ExcelTable.tsx, lines 140-157):
set every cell of the normalized selection rectangle to null. Row indices
beyond the stored row list are out of scope (the grid only selects
existing rows). -/
def clearSelectedContent (s : Sheet) (sel : SelectionRange) : Sheet :=
  let b := boundsOf sel
  { s with
    rows := mapIdxFrom (fun r row =>
      if b.minR ≤ r ∧ r ≤ b.maxR then
        setRange s.columns b.minC b.maxC (fun _ => Cell.null) row
      else row) 0 s.rows }

/-- The current stringified value of the cell at row r, key k:
data.rows[r]?.[k]?.toString() with the empty-string fallback, so an
absent row, an absent key and a null value all yield the empty string. -/
def stringifyAt (s : Sheet) (r : Nat) (k : String) : String :=
  match s.rows[r]? with
  | none => ""
  | some row =>
    match rowGet row k with
    | none => ""
    | some v => jsToString v

/-- handleSaveEdit (src/components/ExcelTable.tsx, lines 69-87) with the
target position and buffer already resolved: some new sheet when the
buffer differs from the cell's current stringified value (the write),
none when no write happens. Out-of-range row indices are out of scope
(List.set leaves the list unchanged there). -/
def handleSaveEdit (s : Sheet) (pos : Option CellPos) (val : String) : Option Sheet :=
  match pos with
  | none => none
  | some p =>
    if val = stringifyAt s p.rowIndex p.colKey then none
    else some { s with
      rows := s.rows.set p.rowIndex
        (rowSet (s.rows.getD p.rowIndex []) p.colKey (Cell.str val)) }

/-- The commit path seen from the App: a write goes through onDataChange,
which is updateSheetData (a history push); a skipped write leaves the
state alone. -/
def commitEdit (st : AppState) (pos : Option CellPos) (val : String) : AppState :=
  match handleSaveEdit st.sheet pos val with
  | none => st
  | some ns => updateSheetData st ns

/-- The structured assistant response after parsing (src/types.ts
AIProcessingResult): none models an absent field. A none entry inside
updatedRows models a null row (filtered before acceptance). -/
structure AIProcessingResult where
  updatedRows : Option (List (Option Row)) := none
  updatedStyles : Option (List (String × CellStyle)) := none
  insight : Option String := none
  newColumns : Option (List String) := none
  chartData : Option (List (String × Int)) := none
  chartType : Option String := none
deriving DecidableEq, Repr

/-- The catch branch of processWithAI (geminiService, lines 720-723): a
response that fails JSON parsing is replaced by a fixed fallback result
carrying only the fallback insight message. -/
def parseFailureResult : AIProcessingResult :=
  { insight := some "AI 响应解析失败，请稍后重试。" }

/-- JS new Set insertion semantics: deduplicate keeping the first
occurrence of each element, preserving first-insertion order. -/
def jsSetDedup (l : List String) : List String :=
  l.foldl (fun acc x => if acc.contains x then acc else acc ++ [x]) []

/-- Field-by-field spread merge of a style patch over an existing
override: a present (some) field of the patch wins. -/
def styleMerge (base patch : CellStyle) : CellStyle :=
  { backgroundColor := patch.backgroundColor.or base.backgroundColor
    color := patch.color.or base.color
    fontWeight := patch.fontWeight.or base.fontWeight
    fontStyle := patch.fontStyle.or base.fontStyle
    textDecoration := patch.textDecoration.or base.textDecoration
    fontSize := patch.fontSize.or base.fontSize
    fontFamily := patch.fontFamily.or base.fontFamily
    border := patch.border.or base.border
    borderColor := patch.borderColor.or base.borderColor
    textAlign := patch.textAlign.or base.textAlign
    verticalAlign := patch.verticalAlign.or base.verticalAlign
    wrapText := patch.wrapText.or base.wrapText
    numberFormat := patch.numberFormat.or base.numberFormat
    precision := patch.precision.or base.precision }

/-- The style-merging forEach of runAICommand: each returned patch is
spread over the existing override for its cell id (or an empty object). -/
def mergeAIStyles (styles : List (String × CellStyle))
    (entries : List (String × CellStyle)) : List (String × CellStyle) :=
  entries.foldl (fun acc e =>
    styleSet acc e.1 (styleMerge ((styleGet acc e.1).getD {}) e.2)) styles

/-- The sheet-mutation part of runAICommand (App root, lines 216-255):
accept the replacement rows only when non-empty after dropping null rows,
append deduplicated new column labels only in that case, merge style
patches field by field, and push through updateSheetData only when
something changed. -/
def applyAIResult (st : AppState) (result : AIProcessingResult) : AppState :=
  let s0 := st.sheet
  let p1 : Sheet × Bool :=
    match result.updatedRows with
    | some rows0 =>
      let cleanedRows := rows0.filterMap id
      if 0 < cleanedRows.length then
        let cols := match result.newColumns with
          | some nc => jsSetDedup (s0.columns ++ nc)
          | none => s0.columns
        ({ s0 with rows := cleanedRows, columns := cols }, true)
      else (s0, false)
    | none => (s0, false)
  let p2 : Sheet × Bool :=
    match result.updatedStyles with
    | some entries =>
      ({ p1.1 with cellStyles := mergeAIStyles p1.1.cellStyles entries }, true)
    | none => p1
  if p2.2 then updateSheetData st p2.1 else st

/-- The assistant message content built in runAICommand:
result.insight || a fixed completion message (JS || treats the empty
string as absent). -/
def assistantMessageContent (result : AIProcessingResult) : String :=
  match result.insight with
  | some s => if s = "" then "已完成您的 AI 任务。" else s
  | none => "已完成您的 AI 任务。"

/-- A concrete 2 by 2 sheet holding the values "A", "B", null, "C" in
row-major order: the specification's content-merge example, reused as the
fixture for the concrete witnesses. -/
def sheetA : Sheet :=
  { name := "Sheet1", columns := ["A", "B"],
    rows := [[("A", Cell.str "A"), ("B", Cell.str "B")],
             [("A", Cell.null), ("B", Cell.str "C")]] }

/-- A second concrete sheet, distinct from sheetA. -/
def sheetB : Sheet := { name := "Sheet2", columns := [], rows := [] }

/-- A fresh app state holding sheetA with an empty history. -/
def stateA : AppState := { sheet := sheetA, history := [] }

/-- The full 2 by 2 selection of sheetA. -/
def sel2x2 : SelectionRange :=
  { start := { rowIndex := 0, colIndex := 0, colKey := "A" }
    stop := { rowIndex := 1, colIndex := 1, colKey := "B" } }

/-- The first row of sheetA, selected left to right. -/
def selRow0 : SelectionRange :=
  { start := { rowIndex := 0, colIndex := 0, colKey := "A" }
    stop := { rowIndex := 0, colIndex := 1, colKey := "B" } }

/-- One more push than the history capacity: fifty-one copies of sheetB. -/
def manySheets : List Sheet := List.replicate (MAX_HISTORY_STEPS + 1) sheetB

/-- An assistant response carrying new column labels but no updated rows. -/
def aiNewColsOnly : AIProcessingResult := { newColumns := some ["X"] }

/-- An assistant response carrying one updated row and new column labels
that overlap the existing ones. -/
def aiRowsAndCols : AIProcessingResult :=
  { updatedRows := some [some [("A", Cell.str "1")]]
    newColumns := some ["A", "X"] }

/-!
Helper lemmas about the row and list operations of the embedding.
-/

theorem rowGet_nil (k : String) : rowGet [] k = none := rfl

theorem rowGet_cons (p : String × Cell) (rest : Row) (k : String) :
    rowGet (p :: rest) k = if p.1 = k then some p.2 else rowGet rest k := by
  unfold rowGet
  rw [List.find?_cons]
  by_cases hp : p.1 = k
  · have hb : (p.1 == k) = true := beq_iff_eq.mpr hp
    simp [hb, hp]
  · have hb : (p.1 == k) = false := beq_eq_false_iff_ne.mpr hp
    simp [hb, hp]

theorem rowGet_append (l₁ l₂ : Row) (k : String) :
    rowGet (l₁ ++ l₂) k = (rowGet l₁ k).or (rowGet l₂ k) := by
  unfold rowGet
  rw [List.find?_append]
  cases List.find? (fun p => p.1 == k) l₁ <;> simp

theorem rowGet_eq_none_of_any_false (row : Row) (k : String)
    (h : row.any (fun p => p.1 == k) = false) : rowGet row k = none := by
  induction row with
  | nil => rfl
  | cons p rest ih =>
    simp only [List.any_cons, Bool.or_eq_false_iff] at h
    rw [rowGet_cons, if_neg (by simpa using h.1)]
    exact ih h.2

theorem rowGet_map_update (row : Row) (k : String) (v : Cell) :
    rowGet (row.map (fun p => if p.1 == k then (k, v) else p)) k =
      if row.any (fun p => p.1 == k) then some v else none := by
  induction row with
  | nil => rfl
  | cons p rest ih =>
    simp only [List.map_cons, List.any_cons]
    by_cases hp : p.1 = k
    · have hb : (p.1 == k) = true := beq_iff_eq.mpr hp
      simp [hb, rowGet_cons]
    · have hb : (p.1 == k) = false := beq_eq_false_iff_ne.mpr hp
      simp only [hb, Bool.false_or, Bool.false_eq_true, if_false]
      rw [rowGet_cons, if_neg hp]
      simpa [hb] using ih

theorem rowGet_map_update_ne (row : Row) (k : String) (v : Cell) (k' : String)
    (h : k' ≠ k) :
    rowGet (row.map (fun p => if p.1 == k then (k, v) else p)) k' = rowGet row k' := by
  have hk : ¬k = k' := fun e => h e.symm
  induction row with
  | nil => rfl
  | cons p rest ih =>
    simp only [List.map_cons]
    by_cases hp : p.1 = k
    · have hb : (p.1 == k) = true := beq_iff_eq.mpr hp
      have hp' : ¬p.1 = k' := hp ▸ hk
      simp only [hb, if_true]
      rw [rowGet_cons, rowGet_cons, if_neg hk, if_neg hp']
      simpa [hb] using ih
    · have hb : (p.1 == k) = false := beq_eq_false_iff_ne.mpr hp
      simp only [hb, Bool.false_eq_true, if_false]
      rw [rowGet_cons, rowGet_cons]
      by_cases hq : p.1 = k'
      · rw [if_pos hq, if_pos hq]
      · rw [if_neg hq, if_neg hq]
        simpa [hb] using ih

theorem rowGet_rowSet_self (row : Row) (k : String) (v : Cell) :
    rowGet (rowSet row k v) k = some v := by
  unfold rowSet
  split
  case isTrue h => rw [rowGet_map_update, if_pos h]
  case isFalse h =>
    rw [rowGet_append, rowGet_eq_none_of_any_false row k (Bool.eq_false_iff.mpr h)]
    rw [rowGet_cons]
    simp

theorem rowGet_rowSet_ne (row : Row) (k : String) (v : Cell) (k' : String)
    (h : k' ≠ k) : rowGet (rowSet row k v) k' = rowGet row k' := by
  unfold rowSet
  split
  case isTrue hany => exact rowGet_map_update_ne row k v k' h
  case isFalse hany =>
    rw [rowGet_append, rowGet_cons, if_neg (fun e => h (e.symm))]
    rw [rowGet_nil, Option.or_none]

theorem rowGet_foldl_rowSet_of_ne (g : Nat → String) (f : Nat → Cell) (k : String) :
    ∀ (L : List Nat) (row : Row), (∀ c ∈ L, g c ≠ k) →
      rowGet (L.foldl (fun acc c => rowSet acc (g c) (f c)) row) k = rowGet row k := by
  intro L
  induction L with
  | nil => intro row _; rfl
  | cons c L ih =>
    intro row h
    simp only [List.foldl_cons]
    rw [ih _ (fun c' hc' => h c' (List.mem_cons_of_mem _ hc'))]
    exact rowGet_rowSet_ne row (g c) (f c) k
      (fun e => h c (List.mem_cons_self _ _) e.symm)

theorem rowGet_foldl_rowSet_of_mem (g : Nat → String) (f : Nat → Cell) :
    ∀ (L : List Nat) (row : Row) (c : Nat), c ∈ L → (L.map g).Nodup →
      rowGet (L.foldl (fun acc c => rowSet acc (g c) (f c)) row) (g c) = some (f c) := by
  intro L
  induction L with
  | nil => intro row c hc; exact absurd hc (List.not_mem_nil c)
  | cons c₀ L ih =>
    intro row c hc hnd
    simp only [List.map_cons, List.nodup_cons] at hnd
    simp only [List.foldl_cons]
    rcases List.mem_cons.mp hc with rfl | hc'
    · have hmem : ∀ c' ∈ L, g c' ≠ g c := by
        intro c' hc' he
        exact hnd.1 (he ▸ List.mem_map_of_mem g hc')
      rw [rowGet_foldl_rowSet_of_ne g f (g c) L _ hmem]
      exact rowGet_rowSet_self row (g c) (f c)
    · exact ih _ c hc' hnd.2

theorem mapIdxFrom_getElem? (f : Nat → Row → Row) :
    ∀ (l : List Row) (i j : Nat),
      (mapIdxFrom f i l)[j]? = (l[j]?).map (f (i + j)) := by
  intro l
  induction l with
  | nil => intro i j; simp [mapIdxFrom]
  | cons row rest ih =>
    intro i j
    cases j with
    | zero => simp [mapIdxFrom]
    | succ j =>
      simp only [mapIdxFrom, List.getElem?_cons_succ]
      rw [ih (i + 1) j, show i + 1 + j = i + (j + 1) from by omega]

theorem mapIdxFrom_length (f : Nat → Row → Row) :
    ∀ (l : List Row) (i : Nat), (mapIdxFrom f i l).length = l.length := by
  intro l
  induction l with
  | nil => intro i; rfl
  | cons row rest ih => intro i; simp [mapIdxFrom, ih]

theorem boundsOf_minR_le_maxR (sel : SelectionRange) :
    (boundsOf sel).minR ≤ (boundsOf sel).maxR := min_le_max

theorem boundsOf_minC_le_maxC (sel : SelectionRange) :
    (boundsOf sel).minC ≤ (boundsOf sel).maxC := min_le_max

theorem cols_getD_nodup_on_range (cols : List String) (hnd : cols.Nodup)
    (minC maxC : Nat) (hc : maxC < cols.length) :
    ((List.range' minC (maxC + 1 - minC)).map (fun c => cols.getD c "")).Nodup := by
  apply List.Nodup.map_on _ (List.nodup_range' _ _)
  intro x hx y hy hxy
  have hx' := List.mem_range'_1.mp hx
  have hy' := List.mem_range'_1.mp hy
  have hxl : x < cols.length := by omega
  have hyl : y < cols.length := by omega
  rw [List.getD_eq_getElem?_getD, List.getD_eq_getElem?_getD,
    List.getElem?_eq_getElem hxl, List.getElem?_eq_getElem hyl] at hxy
  simp only [Option.getD_some] at hxy
  exact (List.Nodup.getElem_inj_iff hnd).mp hxy

theorem cols_getD_ne_of_ne (cols : List String) (hnd : cols.Nodup)
    (c c' : Nat) (hc : c < cols.length) (hc' : c' < cols.length) (h : c ≠ c') :
    cols.getD c "" ≠ cols.getD c' "" := by
  rw [List.getD_eq_getElem?_getD, List.getD_eq_getElem?_getD,
    List.getElem?_eq_getElem hc, List.getElem?_eq_getElem hc']
  simp only [Option.getD_some]
  intro he
  exact h ((List.Nodup.getElem_inj_iff hnd).mp he)

theorem decodeAux_append (l₁ l₂ : List Char) :
    ∀ acc, decodeAux acc (l₁ ++ l₂) = decodeAux (decodeAux acc l₁) l₂ := by
  induction l₁ with
  | nil => intro acc; rfl
  | cons c cs ih => intro acc; simp only [List.cons_append, decodeAux]; exact ih _

theorem charVal : ∀ d : Nat, d < 26 → (Char.ofNat (d + 65)).toNat = d + 65 := by
  decide

theorem decodeAux_colLabelChars : ∀ i : Nat, decodeAux 0 (colLabelChars i) = i + 1 := by
  intro i
  induction i using Nat.strong_induction_on with
  | _ i ih =>
    unfold colLabelChars
    by_cases h : i < 26
    · rw [dif_pos h]
      have hv := charVal (i % 26) (Nat.mod_lt _ (by omega))
      simp only [decodeAux, hv]
      omega
    · rw [dif_neg h]
      rw [decodeAux_append]
      have hlt : i / 26 - 1 < i := by
        have : i / 26 < i := Nat.div_lt_self (by omega) (by omega)
        omega
      rw [ih _ hlt]
      have hv := charVal (i % 26) (Nat.mod_lt _ (by omega))
      simp only [decodeAux, hv]
      omega

/-- C1: the base-26 column label generated for every zero-based index i is
a bijection with the index: decoding the generated label yields i back,
distinct indices produce distinct labels, and the stated examples hold
(0 to "A", 25 to "Z", 26 to "AA", 701 to "ZZ"). -/
theorem c1_column_labels_bijective :
    (∀ i : Nat, decodeLabel (colLabel i) = i) ∧
    (∀ i j : Nat, colLabel i = colLabel j → i = j) ∧
    colLabel 0 = "A" ∧ colLabel 25 = "Z" ∧ colLabel 26 = "AA" ∧ colLabel 701 = "ZZ" := by
  have hrt : ∀ i : Nat, decodeLabel (colLabel i) = i := by
    intro i
    show decodeAux 0 (String.mk (colLabelChars i)).data - 1 = i
    have hd : (String.mk (colLabelChars i)).data = colLabelChars i := rfl
    rw [hd, decodeAux_colLabelChars]
    omega
  refine ⟨hrt, fun i j hij => ?_, ?_, ?_, ?_, ?_⟩
  · have hi := hrt i
    rw [hij, hrt j] at hi
    exact hi.symm
  · show String.mk (colLabelChars 0) = "A"
    unfold colLabelChars
    norm_num
  · show String.mk (colLabelChars 25) = "Z"
    unfold colLabelChars
    norm_num
  · show String.mk (colLabelChars 26) = "AA"
    unfold colLabelChars
    norm_num
    unfold colLabelChars
    norm_num
  · show String.mk (colLabelChars 701) = "ZZ"
    unfold colLabelChars
    norm_num
    unfold colLabelChars
    norm_num

theorem undo_iterate_sheet_mem (k : Nat) :
    ∀ st : AppState, (handleUndo^[k] st).sheet ∈ st.sheet :: st.history := by
  induction k with
  | zero => intro st; simp
  | succ k ih =>
    intro st
    rw [Function.iterate_succ_apply]
    cases hh : st.history with
    | nil =>
      have he : handleUndo st = st := by simp [handleUndo, hh]
      rw [he]
      have h := ih st
      rw [hh] at h
      exact h
    | cons a t =>
      have he : handleUndo st = { sheet := a, history := t } := by simp [handleUndo, hh]
      rw [he]
      exact List.mem_cons_of_mem _ (ih { sheet := a, history := t })

theorem foldl_update_mem :
    ∀ (sts : List Sheet) (st0 : AppState), st0.history.length ≤ MAX_HISTORY_STEPS →
      ∀ x, x ∈ (sts.foldl updateSheetData st0).sheet :: (sts.foldl updateSheetData st0).history →
        x ∈ sts ∨ x ∈ (st0.sheet :: st0.history).take (MAX_HISTORY_STEPS + 1 - sts.length) := by
  intro sts
  induction sts with
  | nil =>
    intro st0 hlen x hx
    right
    simp only [List.length_nil, Nat.sub_zero]
    rw [List.take_of_length_le (by simp only [List.length_cons]; omega)]
    exact hx
  | cons ns rest ih =>
    intro st0 hlen x hx
    simp only [List.foldl_cons] at hx
    have hlen1 : (updateSheetData st0 ns).history.length ≤ MAX_HISTORY_STEPS := by
      unfold updateSheetData
      exact List.length_take_le _ _
    rcases ih (updateSheetData st0 ns) hlen1 x hx with h | h
    · exact Or.inl (List.mem_cons_of_mem _ h)
    · by_cases hr : MAX_HISTORY_STEPS + 1 ≤ rest.length
      · rw [show MAX_HISTORY_STEPS + 1 - rest.length = 0 by omega] at h
        simp at h
      · have hm : MAX_HISTORY_STEPS + 1 - rest.length =
            (MAX_HISTORY_STEPS - rest.length) + 1 := by omega
        rw [hm] at h
        simp only [updateSheetData] at h
        rw [List.take_succ_cons] at h
        rcases List.mem_cons.mp h with rfl | h2
        · exact Or.inl (List.mem_cons_self _ _)
        · right
          rw [List.take_take, Nat.min_eq_left (Nat.sub_le _ _)] at h2
          rw [List.length_cons, show MAX_HISTORY_STEPS + 1 - (rest.length + 1) =
            MAX_HISTORY_STEPS - rest.length by omega]
          exact h2

/-- C4: the undo history never holds more than MAX_HISTORY_STEPS snapshots;
every mutation prepends the prior sheet to the front and truncates to that
capacity; and after more than MAX_HISTORY_STEPS mutations, none of which
reinstalls the initial sheet value, the initially pushed state is
unreachable by any sequence of undos. -/
theorem c4_history_bounded (st0 : AppState) (sts : List Sheet)
    (h0 : st0.history = []) (hlen : MAX_HISTORY_STEPS + 1 ≤ sts.length)
    (hne : st0.sheet ∉ sts) :
    (∀ (st : AppState) (ns : Sheet),
      ((updateSheetData st ns).history).length ≤ MAX_HISTORY_STEPS) ∧
    (∀ (st : AppState) (ns : Sheet),
      (updateSheetData st ns).history = (st.sheet :: st.history).take MAX_HISTORY_STEPS) ∧
    (∀ k : Nat, ((handleUndo^[k]) (sts.foldl updateSheetData st0)).sheet ≠ st0.sheet) := by
  refine ⟨fun st ns => ?_, fun st ns => rfl, fun k heq => ?_⟩
  · unfold updateSheetData
    exact List.length_take_le _ _
  · have hmem := undo_iterate_sheet_mem k (sts.foldl updateSheetData st0)
    rcases foldl_update_mem sts st0 (by rw [h0]; simp) _ hmem with h | h
    · rw [heq] at h
      exact hne h
    · rw [show MAX_HISTORY_STEPS + 1 - sts.length = 0 by omega] at h
      simp at h

/-- Witness for C4 at a concrete input: a fresh state holding sheetA and
fifty-one pushes of sheetB. -/
theorem c4_history_bounded_witness :
    stateA.history = [] ∧ MAX_HISTORY_STEPS + 1 ≤ manySheets.length ∧
    stateA.sheet ∉ manySheets ∧
    ((∀ (st : AppState) (ns : Sheet),
      ((updateSheetData st ns).history).length ≤ MAX_HISTORY_STEPS) ∧
    (∀ (st : AppState) (ns : Sheet),
      (updateSheetData st ns).history = (st.sheet :: st.history).take MAX_HISTORY_STEPS) ∧
    (∀ k : Nat, ((handleUndo^[k]) (manySheets.foldl updateSheetData stateA)).sheet ≠ stateA.sheet)) :=
  ⟨rfl, by decide, by decide,
    c4_history_bounded stateA manySheets rfl (by decide) (by decide)⟩

/-- C5: undo immediately after any mutation restores the pre-mutation
sheet as the live sheet and removes the pushed snapshot (the remaining
history is the pre-mutation history truncated to capacity minus one, so
the whole state round-trips whenever the history was below capacity), and
undo with an empty history changes nothing. -/
theorem c5_undo_inverts_mutation :
    (∀ (st : AppState) (ns : Sheet),
      (handleUndo (updateSheetData st ns)).sheet = st.sheet) ∧
    (∀ (st : AppState) (ns : Sheet),
      (handleUndo (updateSheetData st ns)).history =
        st.history.take (MAX_HISTORY_STEPS - 1)) ∧
    (∀ (st : AppState) (ns : Sheet), st.history.length ≤ MAX_HISTORY_STEPS - 1 →
      handleUndo (updateSheetData st ns) = st) ∧
    (∀ st : AppState, st.history = [] → handleUndo st = st) := by
  have hkey : ∀ (st : AppState) (ns : Sheet),
      handleUndo (updateSheetData st ns) =
        { sheet := st.sheet, history := st.history.take (MAX_HISTORY_STEPS - 1) } :=
    fun st ns => rfl
  refine ⟨fun st ns => by rw [hkey], fun st ns => by rw [hkey],
    fun st ns h => ?_, fun st h => by simp [handleUndo, h]⟩
  rw [hkey, List.take_of_length_le h]

theorem executeMerge_merges (s : Sheet) (sel : SelectionRange) (ty : MergeType) :
    (executeMerge s sel ty).merges = s.merges ++ [sel] := rfl

theorem findIdx?_append_singleton_of_none {α : Type} (p : α → Bool) (l : List α)
    (x : α) (h : l.findIdx? p = none) (hx : p x = true) :
    (l ++ [x]).findIdx? p = some l.length := by
  rw [List.findIdx?_append, h]
  simp [List.findIdx?_cons, hx]

theorem eraseIdx_append_singleton_length {α : Type} (l : List α) (x : α) :
    (l ++ [x]).eraseIdx l.length = l := by
  rw [List.eraseIdx_append_of_length_le (Nat.le_refl _)]
  simp

/-- C2: invoking the merge toggle on a rectangle whose normalized bounds
already appear in the merge-region list removes that matching region
instead of appending a duplicate, leaving the rows, the cell styles and
everything else of the sheet unchanged; consequently merging a fresh
rectangle and invoking the toggle again on the identical rectangle
returns the merge-region list to its pre-merge state. -/
theorem c2_merge_toggle_removes (s : Sheet) (sel : SelectionRange) :
    (∀ idx, findMergeIdx s.merges (boundsOf sel) = some idx →
      handleMergeToggle s sel =
        MergeToggleResult.unmerged { s with merges := s.merges.eraseIdx idx } ∧
      ({ s with merges := s.merges.eraseIdx idx } : Sheet).rows = s.rows ∧
      ({ s with merges := s.merges.eraseIdx idx } : Sheet).cellStyles = s.cellStyles) ∧
    (findMergeIdx s.merges (boundsOf sel) = none → ∀ ty : MergeType,
      handleMergeToggle (executeMerge s sel ty) sel =
        MergeToggleResult.unmerged { executeMerge s sel ty with merges := s.merges }) := by
  constructor
  · intro idx hfind
    refine ⟨?_, rfl, rfl⟩
    simp only [handleMergeToggle, hfind]
  · intro hnone ty
    have hfind : findMergeIdx (executeMerge s sel ty).merges (boundsOf sel) =
        some s.merges.length := by
      rw [executeMerge_merges]
      exact findIdx?_append_singleton_of_none _ _ _ hnone (by simp)
    have h2 : handleMergeToggle (executeMerge s sel ty) sel =
        MergeToggleResult.unmerged { executeMerge s sel ty with
          merges := ((executeMerge s sel ty).merges).eraseIdx s.merges.length } := by
      simp only [handleMergeToggle, hfind]
    rw [h2, executeMerge_merges, eraseIdx_append_singleton_length]

theorem mergeRowsOf_cell (s : Sheet) (b : Bounds) (fv : Cell)
    (hnd : s.columns.Nodup) (hr : b.maxR < s.rows.length) (hc : b.maxC < s.columns.length)
    (r c : Nat) (hr1 : b.minR ≤ r) (hr2 : r ≤ b.maxR) (hc1 : b.minC ≤ c) (hc2 : c ≤ b.maxC) :
    rowGet ((mergeRowsOf s b fv).getD r []) (s.columns.getD c "") =
      some (if r = b.minR ∧ c = b.minC then fv else Cell.null) := by
  unfold mergeRowsOf
  rw [List.getD_eq_getElem?_getD, mapIdxFrom_getElem?]
  have hrl : r < s.rows.length := Nat.lt_of_le_of_lt hr2 hr
  rw [List.getElem?_eq_getElem hrl]
  simp only [Option.map_some', Option.getD_some, Nat.zero_add]
  rw [if_pos ⟨hr1, hr2⟩]
  unfold setRange
  have hmem : c ∈ List.range' b.minC (b.maxC + 1 - b.minC) := by
    rw [List.mem_range'_1]; omega
  exact rowGet_foldl_rowSet_of_mem _ _ _ _ c hmem
    (cols_getD_nodup_on_range s.columns hnd _ _ hc)

/-- C3: merging a rectangle with the content strategy writes the
space-joined row-major concatenation of the non-empty cell values into
the top-left cell and null into every other cell of the rectangle. -/
theorem c3_content_merge (s : Sheet) (sel : SelectionRange)
    (hnd : s.columns.Nodup)
    (hr : (boundsOf sel).maxR < s.rows.length)
    (hc : (boundsOf sel).maxC < s.columns.length) :
    rowGet (((executeMerge s sel MergeType.content).rows).getD (boundsOf sel).minR [])
        (s.columns.getD (boundsOf sel).minC "") =
      some (Cell.str (String.intercalate " " (mergeContents s (boundsOf sel)))) ∧
    (∀ r c, (boundsOf sel).minR ≤ r → r ≤ (boundsOf sel).maxR →
      (boundsOf sel).minC ≤ c → c ≤ (boundsOf sel).maxC →
      ¬(r = (boundsOf sel).minR ∧ c = (boundsOf sel).minC) →
      rowGet (((executeMerge s sel MergeType.content).rows).getD r [])
        (s.columns.getD c "") = some Cell.null) := by
  have hrows : (executeMerge s sel MergeType.content).rows =
      mergeRowsOf s (boundsOf sel)
        (Cell.str (String.intercalate " " (mergeContents s (boundsOf sel)))) := rfl
  constructor
  · rw [hrows, mergeRowsOf_cell s _ _ hnd hr hc _ _ (Nat.le_refl _)
      (boundsOf_minR_le_maxR sel) (Nat.le_refl _) (boundsOf_minC_le_maxC sel)]
    rw [if_pos ⟨rfl, rfl⟩]
  · intro r c h1 h2 h3 h4 hne
    rw [hrows, mergeRowsOf_cell s _ _ hnd hr hc _ _ h1 h2 h3 h4, if_neg hne]

/-- Witness for C3 at the specification's own example: the 2 by 2 block
holding "A", "B", null, "C" merged with the content strategy yields the
top-left value "A B C" and null elsewhere. -/
theorem c3_content_merge_witness :
    (rowGet (((executeMerge sheetA sel2x2 MergeType.content).rows).getD 0 []) "A" =
      some (Cell.str "A B C")) ∧
    (rowGet (((executeMerge sheetA sel2x2 MergeType.content).rows).getD 0 []) "B" =
      some Cell.null) ∧
    (rowGet (((executeMerge sheetA sel2x2 MergeType.content).rows).getD (boundsOf sel2x2).minR [])
        (sheetA.columns.getD (boundsOf sel2x2).minC "") =
      some (Cell.str (String.intercalate " " (mergeContents sheetA (boundsOf sel2x2)))) ∧
    (∀ r c, (boundsOf sel2x2).minR ≤ r → r ≤ (boundsOf sel2x2).maxR →
      (boundsOf sel2x2).minC ≤ c → c ≤ (boundsOf sel2x2).maxC →
      ¬(r = (boundsOf sel2x2).minR ∧ c = (boundsOf sel2x2).minC) →
      rowGet (((executeMerge sheetA sel2x2 MergeType.content).rows).getD r [])
        (sheetA.columns.getD c "") = some Cell.null)) :=
  ⟨by decide, by decide,
    c3_content_merge sheetA sel2x2 (by decide) (by decide) (by decide)⟩

theorem clearRows_outside (s : Sheet) (b : Bounds)
    (hnd : s.columns.Nodup) (hc : b.maxC < s.columns.length)
    (r c : Nat) (hcl : c < s.columns.length)
    (hout : r < b.minR ∨ b.maxR < r ∨ c < b.minC ∨ b.maxC < c) :
    rowGet ((mapIdxFrom (fun r row =>
        if b.minR ≤ r ∧ r ≤ b.maxR then
          setRange s.columns b.minC b.maxC (fun _ => Cell.null) row
        else row) 0 s.rows).getD r [])
      (s.columns.getD c "") = rowGet ((s.rows).getD r []) (s.columns.getD c "") := by
  have hlhs : (mapIdxFrom (fun r row =>
      if b.minR ≤ r ∧ r ≤ b.maxR then
        setRange s.columns b.minC b.maxC (fun _ => Cell.null) row
      else row) 0 s.rows).getD r [] =
      ((s.rows[r]?).map (fun row =>
        if b.minR ≤ 0 + r ∧ 0 + r ≤ b.maxR then
          setRange s.columns b.minC b.maxC (fun _ => Cell.null) row
        else row)).getD [] := by
    rw [List.getD_eq_getElem?_getD, mapIdxFrom_getElem?]
  have hrhs : (s.rows).getD r [] = (s.rows[r]?).getD [] :=
    List.getD_eq_getElem?_getD _ _ _
  rw [hlhs, hrhs]
  cases hrow : s.rows[r]? with
  | none => rfl
  | some row =>
    simp only [Option.map_some', Option.getD_some, Nat.zero_add]
    by_cases hin : b.minR ≤ r ∧ r ≤ b.maxR
    · rw [if_pos hin]
      unfold setRange
      refine rowGet_foldl_rowSet_of_ne (fun c' => s.columns.getD c' "")
        (fun _ => Cell.null) (s.columns.getD c "") _ row ?_
      intro c' hc'
      have h' := List.mem_range'_1.mp hc'
      have hc'2 : c' < s.columns.length := by omega
      apply cols_getD_ne_of_ne s.columns hnd c' c hc'2 hcl
      rcases hout with h | h | h | h
      · omega
      · omega
      · omega
      · omega
    · rw [if_neg hin]

/-- C7: the clear-content operation bound to Delete and Backspace sets
every cell of the normalized selection rectangle to null and changes
nothing else: cells outside the rectangle keep their values, and the
column list, widths, heights, styles, merge regions, name and row count
are untouched. -/
theorem c7_clear_rectangle (s : Sheet) (sel : SelectionRange)
    (hnd : s.columns.Nodup) (hc : (boundsOf sel).maxC < s.columns.length) :
    (∀ r c, (boundsOf sel).minR ≤ r → r ≤ (boundsOf sel).maxR →
      (boundsOf sel).minC ≤ c → c ≤ (boundsOf sel).maxC → r < s.rows.length →
      rowGet (((clearSelectedContent s sel).rows).getD r []) (s.columns.getD c "") =
        some Cell.null) ∧
    (∀ r c, c < s.columns.length →
      (r < (boundsOf sel).minR ∨ (boundsOf sel).maxR < r ∨
        c < (boundsOf sel).minC ∨ (boundsOf sel).maxC < c) →
      rowGet (((clearSelectedContent s sel).rows).getD r []) (s.columns.getD c "") =
        rowGet ((s.rows).getD r []) (s.columns.getD c "")) ∧
    (clearSelectedContent s sel).columns = s.columns ∧
    (clearSelectedContent s sel).colWidths = s.colWidths ∧
    (clearSelectedContent s sel).rowHeights = s.rowHeights ∧
    (clearSelectedContent s sel).cellStyles = s.cellStyles ∧
    (clearSelectedContent s sel).merges = s.merges ∧
    (clearSelectedContent s sel).name = s.name ∧
    ((clearSelectedContent s sel).rows).length = s.rows.length := by
  have hrows : (clearSelectedContent s sel).rows =
      mapIdxFrom (fun r row =>
        if (boundsOf sel).minR ≤ r ∧ r ≤ (boundsOf sel).maxR then
          setRange s.columns (boundsOf sel).minC (boundsOf sel).maxC
            (fun _ => Cell.null) row
        else row) 0 s.rows := rfl
  refine ⟨?_, ?_, rfl, rfl, rfl, rfl, rfl, rfl, ?_⟩
  · intro r c h1 h2 h3 h4 hrl
    rw [hrows, List.getD_eq_getElem?_getD, mapIdxFrom_getElem?,
      List.getElem?_eq_getElem hrl]
    simp only [Option.map_some', Option.getD_some, Nat.zero_add]
    rw [if_pos ⟨h1, h2⟩]
    unfold setRange
    have hmem : c ∈ List.range' (boundsOf sel).minC
        ((boundsOf sel).maxC + 1 - (boundsOf sel).minC) := by
      rw [List.mem_range'_1]; omega
    exact rowGet_foldl_rowSet_of_mem _ _ _ _ c hmem
      (cols_getD_nodup_on_range s.columns hnd _ _ hc)
  · intro r c hcl hout
    rw [hrows]
    exact clearRows_outside s (boundsOf sel) hnd hc r c hcl hout
  · rw [hrows]
    exact mapIdxFrom_length _ _ _

/-- Witness for C7 at a concrete input: clearing the selected first row of
the 2 by 2 sample nulls exactly its two cells and leaves the second row,
and every other sheet field, unchanged. -/
theorem c7_clear_rectangle_witness :
    ((clearSelectedContent sheetA selRow0).rows =
      [[("A", Cell.null), ("B", Cell.null)],
       [("A", Cell.null), ("B", Cell.str "C")]]) ∧
    ((∀ r c, (boundsOf selRow0).minR ≤ r → r ≤ (boundsOf selRow0).maxR →
      (boundsOf selRow0).minC ≤ c → c ≤ (boundsOf selRow0).maxC → r < sheetA.rows.length →
      rowGet (((clearSelectedContent sheetA selRow0).rows).getD r [])
        (sheetA.columns.getD c "") = some Cell.null) ∧
    (∀ r c, c < sheetA.columns.length →
      (r < (boundsOf selRow0).minR ∨ (boundsOf selRow0).maxR < r ∨
        c < (boundsOf selRow0).minC ∨ (boundsOf selRow0).maxC < c) →
      rowGet (((clearSelectedContent sheetA selRow0).rows).getD r [])
        (sheetA.columns.getD c "") =
        rowGet ((sheetA.rows).getD r []) (sheetA.columns.getD c "")) ∧
    (clearSelectedContent sheetA selRow0).columns = sheetA.columns ∧
    (clearSelectedContent sheetA selRow0).colWidths = sheetA.colWidths ∧
    (clearSelectedContent sheetA selRow0).rowHeights = sheetA.rowHeights ∧
    (clearSelectedContent sheetA selRow0).cellStyles = sheetA.cellStyles ∧
    (clearSelectedContent sheetA selRow0).merges = sheetA.merges ∧
    (clearSelectedContent sheetA selRow0).name = sheetA.name ∧
    ((clearSelectedContent sheetA selRow0).rows).length = sheetA.rows.length) :=
  ⟨by decide, c7_clear_rectangle sheetA selRow0 (by decide) (by decide)⟩

/-- C6: committing an edit whose buffered text equals the bound cell's
current stringified value (null and an absent cell both stringify to the
empty string) writes nothing: the state, sheet and history included, is
unchanged; a buffer that differs does write and pushes exactly one
history entry. -/
theorem c6_commit_noop (st : AppState) (p : CellPos) (val : String)
    (h : val = stringifyAt st.sheet p.rowIndex p.colKey) :
    commitEdit st (some p) val = st ∧
    (∀ val2, val2 ≠ stringifyAt st.sheet p.rowIndex p.colKey →
      (commitEdit st (some p) val2).history =
        (st.sheet :: st.history).take MAX_HISTORY_STEPS) ∧
    (∀ (s2 : Sheet) (r : Nat) (k : String) (row : Row),
      s2.rows[r]? = some row → rowGet row k = some Cell.null →
      stringifyAt s2 r k = "") := by
  refine ⟨?_, fun val2 hne => ?_, fun s2 r k row hrow hget => ?_⟩
  · simp only [commitEdit, handleSaveEdit]
    rw [if_pos h]
  · simp only [commitEdit, handleSaveEdit]
    rw [if_neg hne]
    rfl
  · simp only [stringifyAt]
    rw [hrow]
    simp only [hget]
    rfl

/-- Witness for C6 at a concrete input: re-committing the value already in
cell A1 of the sample changes nothing. -/
theorem c6_commit_noop_witness :
    ("A" = stringifyAt stateA.sheet 0 "A") ∧
    (commitEdit stateA (some { rowIndex := 0, colIndex := 0, colKey := "A" }) "A" = stateA ∧
    (∀ val2, val2 ≠ stringifyAt stateA.sheet 0 "A" →
      (commitEdit stateA (some { rowIndex := 0, colIndex := 0, colKey := "A" }) val2).history =
        (stateA.sheet :: stateA.history).take MAX_HISTORY_STEPS) ∧
    (∀ (s2 : Sheet) (r : Nat) (k : String) (row : Row),
      s2.rows[r]? = some row → rowGet row k = some Cell.null →
      stringifyAt s2 r k = "")) :=
  ⟨by decide,
    c6_commit_noop stateA { rowIndex := 0, colIndex := 0, colKey := "A" } "A" (by decide)⟩

/-- C10: a commit whose buffer differs from the current stringified value
stores the buffered text verbatim as a string value in the bound cell:
after the commit the cell holds exactly Cell.str of the buffer. -/
theorem c10_commit_stores_string (st : AppState) (p : CellPos) (val : String)
    (hrow : p.rowIndex < st.sheet.rows.length)
    (hne : val ≠ stringifyAt st.sheet p.rowIndex p.colKey) :
    rowGet ((((commitEdit st (some p) val).sheet).rows).getD p.rowIndex []) p.colKey =
      some (Cell.str val) := by
  simp only [commitEdit, handleSaveEdit]
  rw [if_neg hne]
  show rowGet (((st.sheet.rows.set p.rowIndex
      (rowSet (st.sheet.rows.getD p.rowIndex []) p.colKey (Cell.str val)))).getD
      p.rowIndex []) p.colKey = some (Cell.str val)
  rw [List.getD_eq_getElem?_getD, List.getElem?_set_self (by simpa using hrow)]
  exact rowGet_rowSet_self _ _ _

/-- Witness for C10 at a concrete input: typing the digit 5 into cell A1
stores the string "5", not a number. -/
theorem c10_commit_stores_string_witness :
    (0 < stateA.sheet.rows.length ∧ "5" ≠ stringifyAt stateA.sheet 0 "A") ∧
    rowGet ((((commitEdit stateA
        (some { rowIndex := 0, colIndex := 0, colKey := "A" }) "5").sheet).rows).getD 0 [])
      "A" = some (Cell.str "5") :=
  ⟨⟨by decide, by decide⟩,
    c10_commit_stores_string stateA { rowIndex := 0, colIndex := 0, colKey := "A" } "5"
      (by decide) (by decide)⟩

/-- C8: a response that fails JSON parsing is recovered by the fixed
fallback result: applying it performs no sheet mutation (the state,
history included, is returned unchanged, so nothing is pushed), and the
assistant message carries the fallback insight text. -/
theorem c8_parse_failure_no_mutation :
    (∀ st : AppState, applyAIResult st parseFailureResult = st) ∧
    assistantMessageContent parseFailureResult = "AI 响应解析失败，请稍后重试。" := by
  exact ⟨fun st => rfl, rfl⟩

theorem jsSetDedup_go_nodup :
    ∀ (l acc : List String), acc.Nodup →
      (l.foldl (fun acc x => if acc.contains x then acc else acc ++ [x]) acc).Nodup := by
  intro l
  induction l with
  | nil => intro acc hnd; exact hnd
  | cons x xs ih =>
    intro acc hnd
    simp only [List.foldl_cons]
    by_cases hc : acc.contains x = true
    · rw [if_pos hc]
      exact ih acc hnd
    · rw [if_neg hc]
      refine ih (acc ++ [x]) ?_
      have hx : x ∉ acc := by simpa using hc
      simp [List.nodup_append, hnd, hx]

theorem jsSetDedup_go_extends :
    ∀ (l acc : List String), ∃ t,
      l.foldl (fun acc x => if acc.contains x then acc else acc ++ [x]) acc = acc ++ t := by
  intro l
  induction l with
  | nil => intro acc; exact ⟨[], by simp⟩
  | cons x xs ih =>
    intro acc
    simp only [List.foldl_cons]
    by_cases hc : acc.contains x = true
    · rw [if_pos hc]
      exact ih acc
    · rw [if_neg hc]
      obtain ⟨t, ht⟩ := ih (acc ++ [x])
      exact ⟨x :: t, by rw [ht, List.append_assoc]; rfl⟩

theorem jsSetDedup_go_of_fresh :
    ∀ (l acc : List String), l.Nodup → (∀ x ∈ l, x ∉ acc) →
      l.foldl (fun acc x => if acc.contains x then acc else acc ++ [x]) acc = acc ++ l := by
  intro l
  induction l with
  | nil => intro acc _ _; simp
  | cons x xs ih =>
    intro acc hnd hfresh
    simp only [List.nodup_cons] at hnd
    simp only [List.foldl_cons]
    have hc : ¬acc.contains x = true := by
      simpa using hfresh x (List.mem_cons_self _ _)
    rw [if_neg hc]
    rw [ih (acc ++ [x]) hnd.2 ?_]
    · rw [List.append_assoc]; rfl
    · intro y hy
      simp only [List.mem_append, List.mem_singleton]
      rintro (h | rfl)
      · exact hfresh y (List.mem_cons_of_mem _ hy) h
      · exact hnd.1 hy

theorem jsSetDedup_nodup (l : List String) : (jsSetDedup l).Nodup :=
  jsSetDedup_go_nodup l [] List.nodup_nil

theorem jsSetDedup_append_of_nodup (l₁ l₂ : List String) (h : l₁.Nodup) :
    ∃ t, jsSetDedup (l₁ ++ l₂) = l₁ ++ t := by
  unfold jsSetDedup
  rw [List.foldl_append, jsSetDedup_go_of_fresh l₁ [] h (by simp)]
  simpa using jsSetDedup_go_extends l₂ l₁

/-- C9 counterexample: an assistant response carrying the new column label
"X" but no updated row set leaves the column list unchanged (the label is
not appended), refuting the claim that new column labels are always
appended. -/
theorem c9_counterexample_no_rows :
    aiNewColsOnly.newColumns = some ["X"] ∧
    (applyAIResult stateA aiNewColsOnly).sheet.columns = ["A", "B"] ∧
    "X" ∉ (applyAIResult stateA aiNewColsOnly).sheet.columns ∧
    applyAIResult stateA aiNewColsOnly = stateA := by
  decide

/-- C9 amended: whenever the assistant response contains new column labels
and an updated row set that is non-empty after null filtering, the column
list becomes the first-occurrence deduplication of old-labels ++ new-labels:
each label appears at most once, and a duplicate-free existing column list
is preserved in order as a prefix. -/
theorem c9_new_columns_appended (st : AppState) (result : AIProcessingResult)
    (rows0 : List (Option Row)) (nc : List String)
    (hrows : result.updatedRows = some rows0)
    (hclean : rows0.filterMap id ≠ [])
    (hnc : result.newColumns = some nc) :
    (applyAIResult st result).sheet.columns = jsSetDedup (st.sheet.columns ++ nc) ∧
    ((applyAIResult st result).sheet.columns).Nodup ∧
    (st.sheet.columns.Nodup →
      ∃ t, (applyAIResult st result).sheet.columns = st.sheet.columns ++ t) := by
  have hlen : 0 < (rows0.filterMap id).length :=
    List.length_pos.mpr hclean
  have hcols : (applyAIResult st result).sheet.columns =
      jsSetDedup (st.sheet.columns ++ nc) := by
    simp only [applyAIResult, hrows, hnc]
    rw [if_pos hlen]
    cases hsty : result.updatedStyles with
    | none => rfl
    | some entries => rfl
  refine ⟨hcols, ?_, fun hnd => ?_⟩
  · rw [hcols]
    exact jsSetDedup_nodup _
  · rw [hcols]
    exact jsSetDedup_append_of_nodup _ _ hnd

/-- Witness for the amended C9 at a concrete input: one accepted row and
the labels A (already present) and X (fresh) extend columns A, B to
exactly A, B, X. -/
theorem c9_new_columns_appended_witness :
    (aiRowsAndCols.updatedRows = some [some [("A", Cell.str "1")]] ∧
      ([some [("A", Cell.str "1")]] : List (Option Row)).filterMap id ≠ [] ∧
      aiRowsAndCols.newColumns = some ["A", "X"]) ∧
    (applyAIResult stateA aiRowsAndCols).sheet.columns = ["A", "B", "X"] ∧
    ((applyAIResult stateA aiRowsAndCols).sheet.columns =
      jsSetDedup (stateA.sheet.columns ++ ["A", "X"]) ∧
    ((applyAIResult stateA aiRowsAndCols).sheet.columns).Nodup ∧
    (stateA.sheet.columns.Nodup →
      ∃ t, (applyAIResult stateA aiRowsAndCols).sheet.columns =
        stateA.sheet.columns ++ t)) :=
  ⟨⟨rfl, by decide, rfl⟩, by decide,
    c9_new_columns_appended stateA aiRowsAndCols [some [("A", Cell.str "1")]]
      ["A", "X"] rfl (by decide) rfl⟩

end AIExcel
